import Mathlib

/-!
# The Wordle game engine (`game/game.go`)

A shallow embedding of the session type `Wordle` with its operations `Guess`,
`Search` and `formatGuess`, and the properties of the engine stated over it.

A Go `string` is a sequence of bytes: `len(s)` counts bytes, `s[i]` reads a
byte, and `for i, c := range s` walks the UTF-8 encoded code points, `i` being
the byte offset at which the code point `c` starts.  Strings are therefore
lists of bytes here (each byte a natural number; a value of 256 or more never
occurs in a real string and decodes as an invalid byte), and the library
routines the engine calls (`utf8.DecodeRuneInString`, the conversion
`string(rune)`, `strings.Count`, `strings.ContainsRune`) are written out.
-/

namespace Game

/-- A Go string: its bytes, in order. -/
abbrev GoString := List Nat

/-- The bytes of an ASCII literal. -/
def ascii (s : String) : GoString := s.toList.map Char.toNat

/-! ## UTF-8, as the Go runtime and the packages `utf8` and `strings` do it -/

/-- The rune `utf8.RuneError` (U+FFFD). -/
def RuneError : Nat := 0xFFFD

/-- The table `first` of package `utf8` together with `acceptRanges`: for a
leading byte, the length of the sequence and the range its second byte must
lie in; `none` for a byte that cannot start a multi-byte sequence. -/
def leadInfo (b : Nat) : Option (Nat × Nat × Nat) :=
  if 0xC2 ≤ b ∧ b ≤ 0xDF then some (2, 0x80, 0xBF)
  else if b = 0xE0 then some (3, 0xA0, 0xBF)
  else if 0xE1 ≤ b ∧ b ≤ 0xEC then some (3, 0x80, 0xBF)
  else if b = 0xED then some (3, 0x80, 0x9F)
  else if 0xEE ≤ b ∧ b ≤ 0xEF then some (3, 0x80, 0xBF)
  else if b = 0xF0 then some (4, 0x90, 0xBF)
  else if 0xF1 ≤ b ∧ b ≤ 0xF3 then some (4, 0x80, 0xBF)
  else if b = 0xF4 then some (4, 0x80, 0x8F)
  else none

/-- A continuation byte, `0x80 .. 0xBF`. -/
def isCont (b : Nat) : Bool := decide (0x80 ≤ b) && decide (b ≤ 0xBF)

/-- `utf8.DecodeRuneInString`: the first code point of `s` and its width in
bytes; `(RuneError, 1)` for an invalid encoding, `(RuneError, 0)` for the empty
string. -/
def decodeRune : GoString → Nat × Nat
  | [] => (RuneError, 0)
  | s0 :: rest =>
    if s0 < 0x80 then (s0, 1)
    else
      match leadInfo s0 with
      | none => (RuneError, 1)
      | some (sz, lo, hi) =>
        if rest.length + 1 < sz then (RuneError, 1)
        else
          match rest with
          | [] => (RuneError, 1)
          | s1 :: rest1 =>
            if s1 < lo ∨ hi < s1 then (RuneError, 1)
            else if sz ≤ 2 then ((s0 % 32) * 64 + s1 % 64, 2)
            else
              match rest1 with
              | [] => (RuneError, 1)
              | s2 :: rest2 =>
                if !isCont s2 then (RuneError, 1)
                else if sz ≤ 3 then ((s0 % 16) * 4096 + (s1 % 64) * 64 + s2 % 64, 3)
                else
                  match rest2 with
                  | [] => (RuneError, 1)
                  | s3 :: _ =>
                    if !isCont s3 then (RuneError, 1)
                    else ((s0 % 8) * 262144 + (s1 % 64) * 4096 + (s2 % 64) * 64 + s3 % 64, 4)

/-- The loop `for i, c := range s` from byte offset `i` on: the pairs
`(offset, code point)` it visits.  `skip` counts the bytes still to pass over
because they belong to the code point decoded last. -/
def rangeFrom : Nat → Nat → GoString → List (Nat × Nat)
  | _, _, [] => []
  | i, 0, b :: rest =>
    (i, (decodeRune (b :: rest)).1) :: rangeFrom (i + 1) ((decodeRune (b :: rest)).2 - 1) rest
  | i, skip + 1, _ :: rest => rangeFrom (i + 1) skip rest

/-- The pairs `(i, c)` of `for i, c := range s`. -/
def rangeString (s : GoString) : List (Nat × Nat) := rangeFrom 0 0 s

/-- The conversion `string(r)` of a rune: its UTF-8 encoding, and the encoding
of U+FFFD for a surrogate or a value past U+10FFFF. -/
def encodeRune (r : Nat) : GoString :=
  if r ≤ 0x7F then [r]
  else if r ≤ 0x7FF then [0xC0 + r / 64, 0x80 + r % 64]
  else if 0x10FFFF < r ∨ (0xD800 ≤ r ∧ r ≤ 0xDFFF) then [0xEF, 0xBF, 0xBD]
  else if r ≤ 0xFFFF then [0xE0 + r / 4096, 0x80 + (r / 64) % 64, 0x80 + r % 64]
  else [0xF0 + r / 262144, 0x80 + (r / 4096) % 64, 0x80 + (r / 64) % 64, 0x80 + r % 64]

/-- The scan of `strings.Count` for a non-empty `substr`: the number of
non-overlapping instances met from the left.  `skip` counts the bytes of the
instance found last that are still to be passed over. -/
def countFrom (substr : GoString) : Nat → GoString → Nat
  | _, [] => 0
  | 0, b :: rest =>
    if substr.isPrefixOf (b :: rest) then 1 + countFrom substr (substr.length - 1) rest
    else countFrom substr 0 rest
  | skip + 1, _ :: rest => countFrom substr skip rest

/-- `strings.Count(s, substr)`: the number of non-overlapping instances of
`substr` in `s`, and one more than the number of code points of `s` when
`substr` is empty. -/
def Count (s substr : GoString) : Nat :=
  if substr = [] then (rangeString s).length + 1 else countFrom substr 0 s

/-- Whether `substr` occurs in `s` (`strings.Index(s, substr) >= 0`). -/
def hasInfix (substr : GoString) : GoString → Bool
  | [] => substr.isPrefixOf []
  | b :: rest => substr.isPrefixOf (b :: rest) || hasInfix substr rest

/-- `strings.ContainsRune(s, r)`, which is `strings.IndexRune(s, r) >= 0`: a
byte search for a rune below `utf8.RuneSelf`, a search for an invalid
encoding for `utf8.RuneError`, nothing for an invalid rune, and a substring
search for the encoding otherwise. -/
def ContainsRune (s : GoString) (r : Nat) : Bool :=
  if r < 0x80 then s.contains r
  else if r = RuneError then (rangeString s).any (fun ic => ic.2 == RuneError)
  else if 0x10FFFF < r ∨ (0xD800 ≤ r ∧ r ≤ 0xDFFF) then false
  else hasInfix (encodeRune r) s

/-- What `strings.ToLower` returns for a valid UTF-8 string none of whose
code points outside `A .. Z` has a lower-case form, every ASCII string among
them: each of `A .. Z` is replaced by `a .. z` and every other byte is kept. -/
def toLowerASCII (s : GoString) : GoString :=
  s.map (fun b => if 0x41 ≤ b ∧ b ≤ 0x5A then b + 32 else b)

/-! ## Maps -/

/-- A Go map with integer keys and values: its entries, one per key. -/
abbrev GoMap := List (Nat × Nat)

/-- The assignment `m[k] = v`. -/
def GoMap.set (m : GoMap) (k v : Nat) : GoMap :=
  (k, v) :: m.filter (fun e => e.1 != k)

/-- The lookup `v, ok := m[k]`. -/
def GoMap.get (m : GoMap) (k : Nat) : Option Nat :=
  (m.find? (fun e => e.1 == k)).map Prod.snd

/-! ## The session -/

/-- The struct `Wordle`.  The map `dict` is the list of its keys, in
the order the map happens to be iterated. -/
structure Wordle where
  ans : GoString
  guesses : List GoString
  dict : List GoString
deriving DecidableEq, Repr

/-- The struct `GuessResult`; its field `g` points at the session, which
`Guess` returns next to the result. -/
structure GuessResult where
  inDictionary : Bool
  won : Bool
  guess : GoString
deriving DecidableEq, Repr

/-- The error values of the package. -/
inductive GameError where
  /-- The error of `New` when the word list cannot be read. -/
  | readFile
  /-- The error of `Guess`: `word %q does have 5 characters`. -/
  | wordLength (word : GoString)
  /-- The error of `New`: `answer %q must have 5 characters, not %v`. -/
  | answerLength (answer : GoString) (len : Nat)
deriving DecidableEq, Repr

/-- The assignment `dict[k] = struct{}{}` on the key list of a set. -/
def dictInsert (dict : List GoString) (k : GoString) : List GoString :=
  if k ∈ dict then dict else dict ++ [k]

/-- The function `New`.  What lies outside the package is handed in: `toLower`
is `strings.ToLower`; `file` is `none` when `os.ReadFile` fails and otherwise
the fields `strings.Fields` cuts the file into; `r` is the number
`rand.Intn` draws, reduced to the range it is asked for.  The outer `none` is
the run-time panic of `rand.Intn(0)`. -/
def New (toLower : GoString → GoString) (file : Option (List GoString)) (answer : GoString)
    (r : Nat) : Option (Except GameError Wordle) :=
  match file with
  | none => some (.error .readFile)
  | some words =>
    let lenFiveWords := words.filter (fun w => w.length = 5)
    let chosen : Option GoString :=
      if answer = [] then
        if lenFiveWords.length = 0 then none else lenFiveWords[r % lenFiveWords.length]?
      else some answer
    match chosen with
    | none => none
    | some answer =>
      if answer.length ≠ 5 then some (.error (.answerLength answer answer.length))
      else some (.ok { ans := toLower answer, guesses := [],
                       dict := (lenFiveWords.map toLower).foldl dictInsert [] })

/-- The method `isInDictionary`. -/
def isInDictionary (w : Wordle) (word : GoString) : Bool := w.dict.contains word

/-- The method `saveGuess`. -/
def saveGuess (w : Wordle) (guess : GoString) : Wordle :=
  { w with guesses := w.guesses ++ [guess] }

/-- The method `isGuessCorrect`. -/
def isGuessCorrect (w : Wordle) (guess : GoString) : Bool := decide (guess = w.ans)

/-- The method `Guess`: the session after the call, and what the call
returns. -/
def Guess (w : Wordle) (word : GoString) : Wordle × Except GameError GuessResult :=
  if word.length ≠ 5 then (w, .error (.wordLength word))
  else
    let hit := isInDictionary w word
    let w1 := if hit then saveGuess w word else w
    (w1, .ok { guess := word, inDictionary := hit, won := isGuessCorrect w1 word })

/-- The two maps `exact` and `contains` of `Search`. -/
structure Constraints where
  exact : GoMap
  contains : GoMap
deriving DecidableEq, Repr

/-- The body of the inner loop of `Search` for the pair `(i, c)` of a guess;
`none` when `w.ans[i]` is out of range. -/
def searchLetter (ans : GoString) (cs : Constraints) (ic : Nat × Nat) : Option Constraints :=
  let contains := cs.contains.set ic.2 (Count ans (encodeRune ic.2))
  match ans[ic.1]? with
  | none => none
  | some b =>
    if ic.2 = b then some { exact := cs.exact.set ic.1 ic.2, contains := contains }
    else some { exact := cs.exact, contains := contains }

/-- The first loop of `Search`, over the guesses and the letters of each. -/
def buildConstraints (ans : GoString) (guesses : List GoString) : Option Constraints :=
  guesses.foldlM (fun cs g => (rangeString g).foldlM (searchLetter ans) cs)
    { exact := [], contains := [] }

/-- The first check of `Search` on a dictionary word: every position with a
recorded exact letter holds that letter. -/
def exactOk (exact : GoMap) (word : GoString) : Bool :=
  (rangeString word).all (fun ic =>
    match exact.get ic.1 with
    | some r => r == ic.2
    | none => true)

/-- The second check of `Search` on a dictionary word: every recorded letter
occurs the recorded number of times. -/
def containsOk (contains : GoMap) (word : GoString) : Bool :=
  contains.all (fun e => Count word (encodeRune e.1) == e.2)

/-- The method `Search`: the words it returns, in the order the dictionary is
iterated; `none` when it stops with an index out of range.  Its error result
is `nil` on every return and is not carried. -/
def Search (w : Wordle) : Option (List GoString) :=
  match buildConstraints w.ans w.guesses with
  | none => none
  | some cs => some (w.dict.filter (fun word => exactOk cs.exact word && containsOk cs.contains word))

/-- The three cases of the `switch` in `formatGuess`. -/
inductive Mark where
  /-- The first case: `guess[i] == answer[i]` (a green square). -/
  | green
  /-- The second case: the answer contains the letter (a yellow square). -/
  | yellow
  /-- The default case (a white square). -/
  | white
deriving DecidableEq, Repr

/-- The `switch` of `formatGuess` at the byte `b` of the guess at position
`i`; `none` when `answer[i]` is out of range. -/
def markAt (answer : GoString) (i b : Nat) : Option Mark :=
  match answer[i]? with
  | none => none
  | some a =>
    if b = a then some .green
    else if ContainsRune answer b then some .yellow
    else some .white

/-- The loop of `formatGuess` from position `i` on. -/
def marksFrom (answer : GoString) : Nat → GoString → Option (List Mark)
  | _, [] => some []
  | i, b :: rest =>
    match markAt answer i b with
    | none => none
    | some m =>
      match marksFrom answer (i + 1) rest with
      | none => none
      | some ms => some (m :: ms)

/-- What `formatGuess` returns: the row of squares (`share`) when the game is
won, and otherwise the letters of the guess, each on its colour. -/
inductive Rendering where
  | share (squares : List Mark)
  | letters (cells : List (Mark × Nat))
deriving DecidableEq, Repr

/-- The function `formatGuess`; `none` when `answer[i]` is out of range. -/
def formatGuess (guess answer : GoString) (won : Bool) : Option Rendering :=
  match marksFrom answer 0 guess with
  | none => none
  | some ms => if won then some (.share ms) else some (.letters (ms.zip guess))

/-- The sessions a series of calls `Guess(word)` leads through: the session
after the last of them. -/
def play (w : Wordle) (words : List GoString) : Wordle :=
  words.foldl (fun s word => (Guess s word).1) w

/-- All pairs `(i, c)` the first loop of `Search` visits, in order. -/
def letters (guesses : List GoString) : List (Nat × Nat) :=
  guesses.flatMap rangeString

/-- A string of single-byte characters: every byte is below `utf8.RuneSelf`. -/
def isASCII (s : GoString) : Prop := ∀ b ∈ s, b < 0x80

instance (s : GoString) : Decidable (isASCII s) := by
  unfold isASCII; infer_instance

/-- What the map `exact` holds once the pairs `L` have been visited. -/
def ExactInv (ans : GoString) (L : List (Nat × Nat)) (m : GoMap) : Prop :=
  ∀ i r, m.get i = some r ↔ ((i, r) ∈ L ∧ ans[i]? = some r)

/-- What the map `contains` holds once the pairs `L` have been visited. -/
def ContainsInv (ans : GoString) (L : List (Nat × Nat)) (m : GoMap) : Prop :=
  ∀ e : Nat × Nat, e ∈ m ↔ ((∃ i, (i, e.1) ∈ L) ∧ e.2 = Count ans (encodeRune e.1))

/-- The words the two checks of `Search` let through, given the pairs `L` the
first loop visited: a pair `(i, r)` of a guess with `r` the byte of the answer
at `i` binds the code point of the word that starts at offset `i`, and every
visited code point occurs in the word as often as in the answer. -/
def consistent (ans : GoString) (L : List (Nat × Nat)) (word : GoString) : Prop :=
  (∀ ic ∈ rangeString word, ∀ jr ∈ L, jr.1 = ic.1 → ans[jr.1]? = some jr.2 → jr.2 = ic.2) ∧
  (∀ jr ∈ L, Count word (encodeRune jr.2) = Count ans (encodeRune jr.2))

instance (ans : GoString) (L : List (Nat × Nat)) (word : GoString) :
    Decidable (consistent ans L word) := by
  unfold consistent; infer_instance

/-- The number of positions of `guess` that hold the byte `c` and are marked
green or yellow in `ms`. -/
def marked (guess : GoString) (ms : List Mark) (c : Nat) : Nat :=
  ((guess.zip ms).filter (fun p => p.1 == c && p.2 != Mark.white)).length

/-! ## Words used in the worked examples -/

/-- The word `crane`. -/
def crane : GoString := ascii "crane"
/-- The word `slate`. -/
def slate : GoString := ascii "slate"
/-- The word `trace`. -/
def trace : GoString := ascii "trace"
/-- The word `grape`. -/
def grape : GoString := ascii "grape"
/-- The word `evade`. -/
def evade : GoString := ascii "evade"
/-- The word `eerie`. -/
def eerie : GoString := ascii "eerie"
/-- The word `tepid`. -/
def tepid : GoString := ascii "tepid"
/-- The word `melee`. -/
def melee : GoString := ascii "melee"
/-- The word `jewel`. -/
def jewel : GoString := ascii "jewel"
/-- The word `CRANE`, in capitals. -/
def craneUpper : GoString := ascii "CRANE"
/-- The five bytes of the Devanagari letter U+0905 followed by `ab`. -/
def devaAB : GoString := [0xE0, 0xA4, 0x85, 0x61, 0x62]
/-- The five bytes of the letter U+00E0 (a with grave) followed by `abc`. -/
def graveABC : GoString := [0xC3, 0xA0, 0x61, 0x62, 0x63]

/-- A session as `New` leaves it: the answer, the dictionary, no guess yet. -/
def fresh (ans : GoString) (dict : List GoString) : Wordle :=
  { ans := ans, guesses := [], dict := dict }

/-- The word `cran`, of four letters. -/
def cran : GoString := ascii "cran"
/-- The word `slates`, of six letters. -/
def slates : GoString := ascii "slates"
/-- The five bytes of the letter U+9000 followed by `ab`. -/
def hanAB : GoString := [0xE9, 0x80, 0x80, 0x61, 0x62]
/-- The five bytes of the letter U+00E9 (e with acute) followed by `xyz`. -/
def acuteXYZ : GoString := [0xC3, 0xA9, 0x78, 0x79, 0x7A]

/-! ## Calls on a session -/

/-- A call of the method `Search` with the map `dict` iterated in the order
`order`: the session after the call (the method assigns to no field of it),
and what the call returns, the words together with the error, which is `nil`
at the only `return`; `none` when the call stops with an index out of
range. -/
def callSearch (w : Wordle) (order : List GoString) :
    Wordle × Option (List GoString × Option GameError) :=
  (w, (Search { w with dict := order }).map (fun results => (results, none)))

/-- A call on a session: `Guess(word)` or `Search()`. -/
inductive Call where
  | guess (word : GoString)
  | search
deriving DecidableEq, Repr

/-- The session after one call; `none` when the call stops the program with
an index out of range. -/
def step (w : Wordle) : Call → Option Wordle
  | .guess word => some (Guess w word).1
  | .search =>
    match (callSearch w w.dict).2 with
    | none => none
    | some _ => some (callSearch w w.dict).1

/-- The session after a series of calls; `none` when one of them stops the
program. -/
def exec (w : Wordle) : List Call → Option Wordle
  | [] => some w
  | c :: cs =>
    match step w c with
    | none => none
    | some w1 => exec w1 cs

/-! ## The reference definition of `Search` -/

/-- The words the reference definition of `Search` names, in the words of the
property: a dictionary word such that, for every recorded guess `g` and every
position `i`, the word has the letter of the answer at `i` if `g` has it
there, and the letter `g[i]` occurs in the word as often as in the answer. -/
def referenceSearch (w : Wordle) (word : GoString) : Prop :=
  word ∈ w.dict ∧
  ∀ g ∈ w.guesses, ∀ i, i < 5 →
    (g[i]? = w.ans[i]? → word[i]? = w.ans[i]?) ∧
    (∀ c, g[i]? = some c → word.count c = w.ans.count c)

/-! ## Maps: lookup and membership after an assignment -/

theorem GoMap.find_filter_ne (m : GoMap) (k k' : Nat) (h : k' ≠ k) :
    (m.filter (fun e => e.1 != k)).find? (fun e => e.1 == k') = m.find? (fun e => e.1 == k') := by
  induction m with
  | nil => rfl
  | cons e m ih =>
    by_cases he : e.1 = k
    · have h1 : (e.1 != k) = false := by simp [he]
      have h2 : (e.1 == k') = false := by
        rw [he]; exact beq_false_of_ne (fun x => h x.symm)
      simp only [List.filter_cons, List.find?_cons, h1, h2, Bool.false_eq_true, if_false, ih]
    · have h1 : (e.1 != k) = true := by simp [he]
      by_cases he' : e.1 = k'
      · have h2 : (e.1 == k') = true := by simp [he']
        simp only [List.filter_cons, List.find?_cons, h1, h2, if_true]
      · have h2 : (e.1 == k') = false := by simp [he']
        simp only [List.filter_cons, List.find?_cons, h1, h2, if_true, ih]

theorem GoMap.get_set (m : GoMap) (k v k' : Nat) :
    (m.set k v).get k' = if k' = k then some v else m.get k' := by
  unfold GoMap.set GoMap.get
  by_cases h : k' = k
  · subst h; simp
  · have hk : (k == k') = false := beq_false_of_ne (fun x => h x.symm)
    simp only [List.find?_cons, hk, GoMap.find_filter_ne m k k' h, if_neg h]

theorem GoMap.mem_set (m : GoMap) (k v : Nat) (e : Nat × Nat) :
    e ∈ m.set k v ↔ e = (k, v) ∨ (e ∈ m ∧ e.1 ≠ k) := by
  simp [GoMap.set, List.mem_filter]

/-! ## The first loop of `Search` -/

theorem searchLetter_some (ans : GoString) (cs : Constraints) (ic : Nat × Nat) :
    (∃ cs', searchLetter ans cs ic = some cs') ↔ ic.1 < ans.length := by
  unfold searchLetter
  constructor
  · intro ⟨cs', h⟩
    by_contra hlt
    rw [List.getElem?_eq_none (Nat.le_of_not_lt hlt)] at h
    simp at h
  · intro hlt
    rw [List.getElem?_eq_getElem hlt]
    dsimp only
    split
    · exact ⟨_, rfl⟩
    · exact ⟨_, rfl⟩

theorem searchLetter_exact (ans : GoString) (L : List (Nat × Nat)) (cs cs' : Constraints)
    (ic : Nat × Nat) (h : searchLetter ans cs ic = some cs') (hinv : ExactInv ans L cs.exact) :
    ExactInv ans (L ++ [ic]) cs'.exact := by
  obtain ⟨i, c⟩ := ic
  unfold searchLetter at h
  intro j r
  cases hb : ans[i]? with
  | none => simp [hb] at h
  | some b =>
    simp only [hb] at h
    by_cases hcb : c = b
    · rw [if_pos hcb] at h
      have hcs : cs'.exact = cs.exact.set i c := by cases h; rfl
      rw [hcs, GoMap.get_set]
      by_cases hj : j = i
      · subst hj
        rw [if_pos rfl]
        constructor
        · intro hr
          have : c = r := by simpa using hr
          subst this
          exact ⟨by simp, by rw [hb, hcb]⟩
        · intro ⟨_, hr⟩
          rw [hb] at hr
          rw [hcb]; exact hr
      · rw [if_neg hj, hinv j r]
        simp [hj]
    · rw [if_neg hcb] at h
      have hcs : cs'.exact = cs.exact := by cases h; rfl
      rw [hcs, hinv j r]
      constructor
      · intro ⟨h1, h2⟩; exact ⟨by simp [h1], h2⟩
      · intro ⟨h1, h2⟩
        refine ⟨?_, h2⟩
        rcases List.mem_append.1 h1 with h1 | h1
        · exact h1
        · exfalso
          have : j = i ∧ r = c := by simpa using h1
          obtain ⟨rfl, rfl⟩ := this
          rw [hb] at h2
          exact hcb (by simpa using h2.symm)

theorem searchLetter_contains (ans : GoString) (L : List (Nat × Nat)) (cs cs' : Constraints)
    (ic : Nat × Nat) (h : searchLetter ans cs ic = some cs') (hinv : ContainsInv ans L cs.contains) :
    ContainsInv ans (L ++ [ic]) cs'.contains := by
  obtain ⟨i, c⟩ := ic
  have hcs : cs'.contains = cs.contains.set c (Count ans (encodeRune c)) := by
    unfold searchLetter at h
    cases hb : ans[i]? with
    | none => simp [hb] at h
    | some b =>
      simp only [hb] at h
      split at h <;> (cases h; rfl)
  intro e
  rw [hcs, GoMap.mem_set, hinv e]
  obtain ⟨k, v⟩ := e
  constructor
  · rintro (h1 | ⟨⟨⟨j, hj⟩, hv⟩, _⟩)
    · have : k = c ∧ v = Count ans (encodeRune c) := by simpa using h1
      obtain ⟨rfl, rfl⟩ := this
      exact ⟨⟨i, by simp⟩, rfl⟩
    · exact ⟨⟨j, by simp [hj]⟩, hv⟩
  · rintro ⟨⟨j, hj⟩, hv⟩
    by_cases hk : k = c
    · left; subst hk; simp at hv; simp [hv]
    · right
      refine ⟨⟨⟨j, ?_⟩, hv⟩, hk⟩
      rcases List.mem_append.1 hj with hj | hj
      · exact hj
      · exfalso; simp at hj; exact hk hj.2

theorem foldLetters_some (ans : GoString) (L : List (Nat × Nat)) :
    ∀ cs : Constraints, (∀ ic ∈ L, ic.1 < ans.length) →
      ∃ cs', L.foldlM (searchLetter ans) cs = some cs' := by
  induction L with
  | nil => intro cs _; exact ⟨cs, rfl⟩
  | cons ic L ih =>
    intro cs hL
    obtain ⟨cs1, h1⟩ := (searchLetter_some ans cs ic).2 (hL ic (by simp))
    obtain ⟨cs2, h2⟩ := ih cs1 (fun x hx => hL x (by simp [hx]))
    exact ⟨cs2, by rw [List.foldlM_cons, h1]; exact h2⟩

theorem foldLetters_bound (ans : GoString) (L : List (Nat × Nat)) :
    ∀ cs cs' : Constraints, L.foldlM (searchLetter ans) cs = some cs' →
      ∀ ic ∈ L, ic.1 < ans.length := by
  induction L with
  | nil => intro _ _ _ ic hic; simp at hic
  | cons a L ih =>
    intro cs cs' h ic hic
    rw [List.foldlM_cons] at h
    cases h1 : searchLetter ans cs a with
    | none => rw [h1] at h; simp at h
    | some cs1 =>
      rw [h1] at h
      rcases List.mem_cons.1 hic with rfl | hic
      · exact (searchLetter_some ans cs ic).1 ⟨cs1, h1⟩
      · exact ih cs1 cs' h ic hic

theorem foldLetters_inv (ans : GoString) (L' : List (Nat × Nat)) :
    ∀ (L : List (Nat × Nat)) (cs cs' : Constraints),
      L'.foldlM (searchLetter ans) cs = some cs' →
      ExactInv ans L cs.exact → ContainsInv ans L cs.contains →
      ExactInv ans (L ++ L') cs'.exact ∧ ContainsInv ans (L ++ L') cs'.contains := by
  induction L' with
  | nil =>
    intro L cs cs' h he hc
    have : cs = cs' := by simpa using h
    subst this
    simpa using ⟨he, hc⟩
  | cons a L' ih =>
    intro L cs cs' h he hc
    rw [List.foldlM_cons] at h
    cases h1 : searchLetter ans cs a with
    | none => rw [h1] at h; simp at h
    | some cs1 =>
      rw [h1] at h
      have := ih (L ++ [a]) cs1 cs' h (searchLetter_exact ans L cs cs1 a h1 he)
        (searchLetter_contains ans L cs cs1 a h1 hc)
      simpa using this

theorem buildConstraints_from (ans : GoString) (gs : List GoString) :
    ∀ cs : Constraints,
      gs.foldlM (fun cs g => (rangeString g).foldlM (searchLetter ans) cs) cs
        = (letters gs).foldlM (searchLetter ans) cs := by
  induction gs with
  | nil => intro cs; rfl
  | cons g gs ih =>
    intro cs
    rw [List.foldlM_cons]
    have : letters (g :: gs) = rangeString g ++ letters gs := by simp [letters]
    rw [this, List.foldlM_append]
    cases h : (rangeString g).foldlM (searchLetter ans) cs with
    | none => rfl
    | some cs1 => exact ih cs1

theorem buildConstraints_eq (ans : GoString) (gs : List GoString) :
    buildConstraints ans gs
      = (letters gs).foldlM (searchLetter ans) { exact := [], contains := [] } :=
  buildConstraints_from ans gs _

theorem buildConstraints_some (ans : GoString) (gs : List GoString)
    (h : ∀ ic ∈ letters gs, ic.1 < ans.length) :
    ∃ cs, buildConstraints ans gs = some cs := by
  rw [buildConstraints_eq]; exact foldLetters_some ans _ _ h

theorem buildConstraints_bound (ans : GoString) (gs : List GoString) (cs : Constraints)
    (h : buildConstraints ans gs = some cs) : ∀ ic ∈ letters gs, ic.1 < ans.length := by
  rw [buildConstraints_eq] at h; exact foldLetters_bound ans _ _ _ h

theorem buildConstraints_inv (ans : GoString) (gs : List GoString) (cs : Constraints)
    (h : buildConstraints ans gs = some cs) :
    ExactInv ans (letters gs) cs.exact ∧ ContainsInv ans (letters gs) cs.contains := by
  rw [buildConstraints_eq] at h
  have := foldLetters_inv ans (letters gs) [] _ cs h
    (by intro i r; simp [GoMap.get]) (by intro e; simp)
  simpa using this

/-! ## The result of `Search` -/

theorem exactOk_iff (ans : GoString) (L : List (Nat × Nat)) (m : GoMap)
    (hinv : ExactInv ans L m) (word : GoString) :
    exactOk m word = true ↔
      ∀ ic ∈ rangeString word, ∀ jr ∈ L, jr.1 = ic.1 → ans[jr.1]? = some jr.2 → jr.2 = ic.2 := by
  unfold exactOk
  rw [List.all_eq_true]
  constructor
  · intro h ic hic jr hjr hji hans
    have hget : m.get ic.1 = some jr.2 := by
      rw [hinv ic.1 jr.2, ← hji]; exact ⟨hjr, hans⟩
    have := h ic hic
    rw [hget] at this
    simpa using this
  · intro h ic hic
    cases hget : m.get ic.1 with
    | none => rfl
    | some r =>
      obtain ⟨h1, h2⟩ := (hinv ic.1 r).1 hget
      have := h ic hic (ic.1, r) h1 rfl h2
      simpa using this

theorem containsOk_iff (ans : GoString) (L : List (Nat × Nat)) (m : GoMap)
    (hinv : ContainsInv ans L m) (word : GoString) :
    containsOk m word = true ↔
      ∀ jr ∈ L, Count word (encodeRune jr.2) = Count ans (encodeRune jr.2) := by
  unfold containsOk
  rw [List.all_eq_true]
  constructor
  · intro h jr hjr
    have hm : (jr.2, Count ans (encodeRune jr.2)) ∈ m := (hinv _).2 ⟨⟨jr.1, hjr⟩, rfl⟩
    simpa using h _ hm
  · intro h e he
    obtain ⟨⟨i, hi⟩, hv⟩ := (hinv e).1 he
    have := h (i, e.1) hi
    simp only at this
    rw [hv]; simpa using this

theorem Search_none_iff (w : Wordle) :
    Search w = none ↔ ∃ ic ∈ letters w.guesses, w.ans.length ≤ ic.1 := by
  unfold Search
  constructor
  · intro h
    by_contra hne
    push_neg at hne
    obtain ⟨cs, hcs⟩ := buildConstraints_some w.ans w.guesses hne
    rw [hcs] at h
    simp at h
  · intro ⟨ic, hic, hle⟩
    cases hcs : buildConstraints w.ans w.guesses with
    | none => rfl
    | some cs =>
      exact absurd (buildConstraints_bound w.ans w.guesses cs hcs ic hic) (Nat.not_lt.2 hle)

theorem Search_some (w : Wordle) (h : ∀ ic ∈ letters w.guesses, ic.1 < w.ans.length) :
    Search w = some (w.dict.filter (fun word => decide (consistent w.ans (letters w.guesses) word))) := by
  obtain ⟨cs, hcs⟩ := buildConstraints_some w.ans w.guesses h
  obtain ⟨he, hc⟩ := buildConstraints_inv w.ans w.guesses cs hcs
  unfold Search
  rw [hcs]
  simp only [Option.some.injEq]
  apply List.filter_congr
  intro word _
  rw [Bool.eq_iff_iff]
  simp only [Bool.and_eq_true, decide_eq_true_eq, consistent]
  rw [exactOk_iff w.ans _ _ he, containsOk_iff w.ans _ _ hc]

theorem Search_eq_some (w : Wordle) (res : List GoString) (h : Search w = some res) :
    (∀ ic ∈ letters w.guesses, ic.1 < w.ans.length) ∧
    res = w.dict.filter (fun word => decide (consistent w.ans (letters w.guesses) word)) := by
  have hb : ∀ ic ∈ letters w.guesses, ic.1 < w.ans.length := by
    by_contra hne
    push_neg at hne
    rw [(Search_none_iff w).2 hne] at h
    simp at h
  refine ⟨hb, ?_⟩
  rw [Search_some w hb] at h
  exact (Option.some.inj h).symm

/-! ## Offsets of `range`, and the state after `Guess` -/

theorem rangeFrom_bound (s : GoString) :
    ∀ (i k : Nat) (ic : Nat × Nat), ic ∈ rangeFrom i k s → i ≤ ic.1 ∧ ic.1 < i + s.length := by
  induction s with
  | nil => intro i k ic h; simp [rangeFrom] at h
  | cons b rest ih =>
    intro i k ic h
    cases k with
    | zero =>
      rw [rangeFrom] at h
      rcases List.mem_cons.1 h with rfl | h
      · simp
      · have := ih _ _ ic h
        simp only [List.length_cons]; omega
    | succ k =>
      rw [rangeFrom] at h
      have := ih _ _ ic h
      simp only [List.length_cons]; omega

theorem rangeString_bound (s : GoString) (ic : Nat × Nat) (h : ic ∈ rangeString s) :
    ic.1 < s.length := by
  have := rangeFrom_bound s 0 0 ic h
  omega

theorem letters_bound (gs : List GoString) (n : Nat) (h : ∀ g ∈ gs, g.length ≤ n) :
    ∀ ic ∈ letters gs, ic.1 < n := by
  intro ic hic
  obtain ⟨g, hg, hic⟩ := List.mem_flatMap.1 hic
  have := rangeString_bound g ic hic
  have := h g hg
  omega

theorem rangeFrom_ascii (s : GoString) :
    ∀ (i : Nat) (ic : Nat × Nat), isASCII s → ic ∈ rangeFrom i 0 s →
      ∃ j, ic.1 = i + j ∧ s[j]? = some ic.2 := by
  induction s with
  | nil => intro i ic _ h; simp [rangeFrom] at h
  | cons b rest ih =>
    intro i ic hs h
    have hb : b < 0x80 := hs b (by simp)
    have hd : decodeRune (b :: rest) = (b, 1) := by simp [decodeRune, hb]
    rw [rangeFrom, hd] at h
    rcases List.mem_cons.1 h with rfl | h
    · exact ⟨0, rfl, by simp⟩
    · obtain ⟨j, hj, hget⟩ := ih (i + 1) ic (fun x hx => hs x (by simp [hx])) h
      exact ⟨j + 1, by omega, by simpa using hget⟩

theorem rangeString_ascii (s : GoString) (hs : isASCII s) (ic : Nat × Nat)
    (h : ic ∈ rangeString s) : s[ic.1]? = some ic.2 := by
  obtain ⟨j, hj, hget⟩ := rangeFrom_ascii s 0 ic hs h
  have : ic.1 = j := by omega
  rw [this]; exact hget

theorem consistent_self (ans : GoString) (hs : isASCII ans) (L : List (Nat × Nat)) :
    consistent ans L ans := by
  refine ⟨?_, fun _ _ => rfl⟩
  intro ic hic jr _ hji hans
  have := rangeString_ascii ans hs ic hic
  rw [hji, this] at hans
  exact (Option.some.inj hans).symm

theorem Guess_state (w : Wordle) (word : GoString) :
    (Guess w word).1 =
      if word.length = 5 ∧ word ∈ w.dict then saveGuess w word else w := by
  unfold Guess isInDictionary
  by_cases hl : word.length = 5
  · by_cases hd : word ∈ w.dict
    · simp [hl, hd]
    · simp [hl, hd]
  · simp [hl]

theorem Guess_ans (w : Wordle) (word : GoString) : (Guess w word).1.ans = w.ans := by
  rw [Guess_state]; split <;> rfl

theorem Guess_dict (w : Wordle) (word : GoString) : (Guess w word).1.dict = w.dict := by
  rw [Guess_state]; split <;> rfl

theorem Guess_guesses (w : Wordle) (word : GoString) :
    (Guess w word).1.guesses =
      if word.length = 5 ∧ word ∈ w.dict then w.guesses ++ [word] else w.guesses := by
  rw [Guess_state]; split <;> rfl

theorem play_ans (words : List GoString) : ∀ w : Wordle, (play w words).ans = w.ans := by
  induction words with
  | nil => intro w; rfl
  | cons x xs ih => intro w; simp only [play, List.foldl_cons] at ih ⊢; rw [ih, Guess_ans]

theorem play_dict (words : List GoString) : ∀ w : Wordle, (play w words).dict = w.dict := by
  induction words with
  | nil => intro w; rfl
  | cons x xs ih => intro w; simp only [play, List.foldl_cons] at ih ⊢; rw [ih, Guess_dict]

theorem play_guesses (words : List GoString) :
    ∀ w : Wordle, (play w words).guesses =
      w.guesses ++ words.filter (fun x => decide (x.length = 5 ∧ x ∈ w.dict)) := by
  induction words with
  | nil => intro w; simp [play]
  | cons x xs ih =>
    intro w
    have h := ih (Guess w x).1
    simp only [play, List.foldl_cons] at h ⊢
    rw [h, Guess_guesses, Guess_dict]
    by_cases hx : x.length = 5 ∧ x ∈ w.dict
    · simp [List.filter_cons, hx]
    · rw [if_neg hx, List.filter_cons]
      simp [hx]

/-! ## Helper facts for the claims -/

theorem consistent_mono (ans : GoString) (L L' : List (Nat × Nat)) (word : GoString)
    (hsub : ∀ x ∈ L, x ∈ L') (h : consistent ans L' word) : consistent ans L word :=
  ⟨fun ic hic jr hjr => h.1 ic hic jr (hsub jr hjr), fun jr hjr => h.2 jr (hsub jr hjr)⟩

theorem letters_Guess (w : Wordle) (g : GoString) :
    ∀ x ∈ letters w.guesses, x ∈ letters (Guess w g).1.guesses := by
  intro x hx
  rw [Guess_guesses]
  split
  · simp only [letters, List.flatMap_append, List.mem_append]
    exact Or.inl hx
  · exact hx

theorem Search_contains_answer (w : Wordle) (hA : isASCII w.ans) (hd : w.ans ∈ w.dict)
    (hg : ∀ g ∈ w.guesses, g.length ≤ w.ans.length) :
    ∃ res, Search w = some res ∧ w.ans ∈ res := by
  refine ⟨_, Search_some w (letters_bound w.guesses _ hg), ?_⟩
  rw [List.mem_filter]
  exact ⟨hd, decide_eq_true (consistent_self w.ans hA _)⟩

/-! ## The claims -/

/-- C1 (the code departs from it).  A session `New` builds from a word list
holding the two five-byte words U+0905 `ab` and U+00E0 `abc` (lower-casing
leaves both as they are), with the first as answer: the answer is in the
dictionary, the guess U+00E0 `abc` is accepted as a dictionary word, and
`Search` then returns no word at all, so the answer is not among its
results. -/
theorem search_drops_multibyte_answer :
    New toLowerASCII (some [devaAB, graveABC]) devaAB 0
        = some (.ok (fresh devaAB [devaAB, graveABC])) ∧
    (fresh devaAB [devaAB, graveABC]).ans ∈ (fresh devaAB [devaAB, graveABC]).dict ∧
    (Guess (fresh devaAB [devaAB, graveABC]) graveABC).2
        = .ok { inDictionary := true, won := false, guess := graveABC } ∧
    Search (Guess (fresh devaAB [devaAB, graveABC]) graveABC).1 = some [] :=
  ⟨rfl, by decide, rfl, by decide⟩

/-- C2.  `Search` after `Guess(g)` returns a sublist of what `Search` returned
before it: whenever the later call returns, the earlier one returned too, every
word of the later result is in the earlier one, and the later result is no
longer.  Both calls do return when the answer and the recorded guesses have 5
characters. -/
theorem search_after_guess_subset (w : Wordle) (g : GoString) :
    (∀ after, Search (Guess w g).1 = some after →
      ∃ before, Search w = some before ∧
        after.Sublist before ∧ after ⊆ before ∧ after.length ≤ before.length) ∧
    (w.ans.length = 5 → (∀ x ∈ w.guesses, x.length = 5) →
      ∃ before after, Search w = some before ∧ Search (Guess w g).1 = some after) := by
  constructor
  · intro after h
    obtain ⟨hb, hres⟩ := Search_eq_some _ after h
    rw [Guess_ans] at hb
    have hb0 : ∀ ic ∈ letters w.guesses, ic.1 < w.ans.length :=
      fun ic hic => hb ic (letters_Guess w g ic hic)
    refine ⟨_, Search_some w hb0, ?_⟩
    have hsub : after.Sublist
        (w.dict.filter (fun word => decide (consistent w.ans (letters w.guesses) word))) := by
      rw [hres, Guess_dict, Guess_ans]
      apply List.monotone_filter_right
      intro word hword
      exact decide_eq_true
        (consistent_mono w.ans _ _ word (letters_Guess w g) (of_decide_eq_true hword))
    exact ⟨hsub, hsub.subset, hsub.length_le⟩
  · intro h5 hg
    have hb0 : ∀ ic ∈ letters w.guesses, ic.1 < w.ans.length :=
      letters_bound _ _ (fun x hx => by rw [hg x hx, h5])
    have hb1 : ∀ ic ∈ letters (Guess w g).1.guesses, ic.1 < (Guess w g).1.ans.length := by
      rw [Guess_ans]
      apply letters_bound
      intro x hx
      rw [Guess_guesses] at hx
      split at hx
      · rename_i hc
        rcases List.mem_append.1 hx with hx | hx
        · rw [hg x hx, h5]
        · have : x = g := by simpa using hx
          rw [this, hc.1, h5]
      · rw [hg x hx, h5]
    exact ⟨_, _, Search_some w hb0, Search_some _ hb1⟩

/-- Witness for C2 on the session with answer `crane` after the guess
`slate`. -/
theorem search_after_guess_subset_witness :
    ∃ before, Search (fresh crane [crane, slate, trace, grape]) = some before ∧
      [crane, grape].Sublist before ∧ [crane, grape] ⊆ before ∧
      [crane, grape].length ≤ before.length :=
  (search_after_guess_subset (fresh crane [crane, slate, trace, grape]) slate).1
    [crane, grape] (by decide)

/-- C3 (the code departs from it).  The guess `tepid` gets the same feedback
against the answers `melee` and `jewel` (only its `e` is marked, green), yet
`Search` after that guess returns `melee` alone for the one answer and `jewel`
alone for the other: its result depends on the answer beyond the feedback. -/
theorem search_tells_answers_with_equal_feedback_apart :
    marksFrom melee 0 tepid = some [.white, .green, .white, .white, .white] ∧
    marksFrom jewel 0 tepid = some [.white, .green, .white, .white, .white] ∧
    formatGuess tepid melee false = formatGuess tepid jewel false ∧
    Search (Guess (fresh melee [tepid, melee, jewel]) tepid).1 = some [melee] ∧
    Search (Guess (fresh jewel [tepid, melee, jewel]) tepid).1 = some [jewel] :=
  ⟨by decide, by decide, by decide, by decide, by decide⟩

theorem ContainsRune_ascii (s : GoString) (c : Nat) (hc : c < 0x80) :
    ContainsRune s c = true ↔ c ∈ s := by
  simp [ContainsRune, hc]

theorem marked_cons (b : Nat) (rest : GoString) (m : Mark) (ms : List Mark) (c : Nat) :
    marked (b :: rest) (m :: ms) c
      = (if b = c ∧ m ≠ Mark.white then 1 else 0) + marked rest ms c := by
  unfold marked
  rw [List.zip_cons_cons, List.filter_cons]
  by_cases h : b = c ∧ m ≠ Mark.white
  · have : ((b, m).1 == c && (b, m).2 != Mark.white) = true := by
      simp [h.1, h.2]
    rw [if_pos this, if_pos h, List.length_cons]; omega
  · have : ¬ ((b, m).1 == c && (b, m).2 != Mark.white) = true := by
      simpa using h
    rw [if_neg this, if_neg h]; omega

theorem markAt_some (answer : GoString) (i b : Nat) (hi : i < answer.length) :
    ∃ m, markAt answer i b = some m ∧
      (b < 0x80 → (m ≠ Mark.white ↔ b ∈ answer)) := by
  unfold markAt
  rw [List.getElem?_eq_getElem hi]
  dsimp only
  by_cases h1 : b = answer[i]
  · refine ⟨.green, by rw [if_pos h1], fun _ => ?_⟩
    simp only [ne_eq, reduceCtorEq, not_false_eq_true, true_iff]
    rw [h1]; exact List.getElem_mem _
  · rw [if_neg h1]
    by_cases h2 : ContainsRune answer b = true
    · refine ⟨.yellow, by rw [if_pos h2], fun hb => ?_⟩
      simp only [ne_eq, reduceCtorEq, not_false_eq_true, true_iff]
      exact (ContainsRune_ascii answer b hb).1 h2
    · refine ⟨.white, by rw [if_neg h2], fun hb => ?_⟩
      simp only [ne_eq, not_true_eq_false, false_iff]
      exact fun hmem => h2 ((ContainsRune_ascii answer b hb).2 hmem)

theorem marksFrom_some (answer : GoString) (guess : GoString) :
    ∀ i, i + guess.length ≤ answer.length →
      ∃ ms, marksFrom answer i guess = some ms ∧ ms.length = guess.length ∧
        ∀ c, c < 0x80 →
          (c ∉ answer → marked guess ms c = 0) ∧
          (c ∈ answer → marked guess ms c = guess.count c) := by
  induction guess with
  | nil =>
    intro i _
    exact ⟨[], rfl, rfl, fun c _ => ⟨fun _ => rfl, fun _ => rfl⟩⟩
  | cons b rest ih =>
    intro i hi
    simp only [List.length_cons] at hi
    obtain ⟨m, hm, hmark⟩ := markAt_some answer i b (by omega)
    obtain ⟨ms, hms, hlen, hrest⟩ := ih (i + 1) (by omega)
    refine ⟨m :: ms, by rw [marksFrom, hm, hms], by simp [hlen], ?_⟩
    intro c hc
    rw [marked_cons, List.count_cons]
    by_cases hbc : b = c
    · subst hbc
      have hmk := hmark hc
      constructor
      · intro hna
        have : ¬ (b = b ∧ m ≠ Mark.white) := fun h => hna (hmk.1 h.2)
        rw [if_neg this, (hrest b hc).1 hna]
      · intro ha
        have : b = b ∧ m ≠ Mark.white := ⟨rfl, hmk.2 ha⟩
        rw [if_pos this, (hrest b hc).2 ha]
        simp; omega
    · have : ¬ (b = c ∧ m ≠ Mark.white) := fun h => hbc h.1
      rw [if_neg this]
      have hbeq : (b == c) = false := beq_false_of_ne hbc
      constructor
      · intro hna; rw [(hrest c hc).1 hna]
      · intro ha; rw [(hrest c hc).2 ha]; simp [hbeq]

/-- C4, as the claim states it, fails.  For the guess `eerie` against the
answer `crane` the feedback marks three positions holding `e` (two yellow, one
green), while `crane` holds a single `e`. -/
theorem feedback_marks_more_than_answer_holds :
    marksFrom crane 0 eerie = some [.yellow, .yellow, .yellow, .white, .green] ∧
    marked eerie [.yellow, .yellow, .yellow, .white, .green] 0x65 = 3 ∧
    Count crane [0x65] = 1 ∧ crane.count 0x65 = 1 ∧
    ¬ (marked eerie [.yellow, .yellow, .yellow, .white, .green] 0x65 ≤ Count crane [0x65]) := by
  decide

/-- C4, amended.  For a guess and an answer of 5 characters the feedback is
computed, one mark per position, and for every single-byte letter `c` the
number of positions holding `c` that are marked green or yellow is 0 when the
answer holds no `c` and is the number of copies of `c` in the guess when the
answer holds one: a copy of `c` in the guess is white only when the answer
holds no `c` at all. -/
theorem feedback_marks_every_copy (guess answer : GoString)
    (hg : guess.length = 5) (ha : answer.length = 5) :
    ∃ ms, marksFrom answer 0 guess = some ms ∧ ms.length = 5 ∧
      ∀ c, c < 0x80 →
        (c ∉ answer → marked guess ms c = 0) ∧
        (c ∈ answer → marked guess ms c = guess.count c) := by
  obtain ⟨ms, h1, h2, h3⟩ := marksFrom_some answer guess 0 (by omega)
  exact ⟨ms, h1, by rw [h2, hg], h3⟩

/-- Witness for C4, amended: the guess `eerie` against the answer `crane`. -/
theorem feedback_marks_every_copy_witness :
    ∃ ms, marksFrom crane 0 eerie = some ms ∧ ms.length = 5 ∧
      ∀ c, c < 0x80 →
        (c ∉ crane → marked eerie ms c = 0) ∧
        (c ∈ crane → marked eerie ms c = eerie.count c) :=
  feedback_marks_every_copy eerie crane (by decide) (by decide)

/-- C5, as the claim states it, fails.  With the dictionary `crane`, `slate`,
`trace`, `grape` and the answer `crane`, no result of `Search` after
`Guess("slate")` leaves out `slate` and holds `crane`, `trace` and `grape`: the
call returns `crane` and `grape`, and `trace` is not among them. -/
theorem scenario_result_lacks_trace :
    ¬ ∃ res, Search (Guess (fresh crane [crane, slate, trace, grape]) slate).1 = some res ∧
        slate ∉ res ∧ crane ∈ res ∧ trace ∈ res ∧ grape ∈ res := by
  have h : Search (Guess (fresh crane [crane, slate, trace, grape]) slate).1
      = some [crane, grape] := by decide
  rintro ⟨res, hres, -, -, htrace, -⟩
  rw [h] at hres
  have : res = [crane, grape] := (Option.some.inj hres).symm
  subst this
  revert htrace
  decide

/-- C5, amended.  For the session with answer `crane` whose dictionary holds
exactly `crane`, `slate`, `trace` and `grape` (in whatever order the map is
iterated), `Guess("slate")` is followed by a `Search` whose result holds
`crane` and `grape` and no other word: `slate` and `trace` are both left
out. -/
theorem scenario_result (d : List GoString)
    (hd : ∀ x, x ∈ d ↔ x ∈ [crane, slate, trace, grape]) :
    ∃ res, Search (Guess (fresh crane d) slate).1 = some res ∧
      ∀ x, x ∈ res ↔ (x = crane ∨ x = grape) := by
  have hslate : slate ∈ d := (hd slate).2 (by decide)
  have hst : (Guess (fresh crane d) slate).1
      = { ans := crane, guesses := [slate], dict := d } := by
    rw [Guess_state, if_pos ⟨by decide, hslate⟩]; rfl
  rw [hst]
  have hb : ∀ g ∈ [slate], g.length ≤ crane.length := by decide
  refine ⟨_, Search_some _ (letters_bound _ _ hb), ?_⟩
  intro x
  rw [List.mem_filter, hd x]
  simp only [decide_eq_true_eq]
  constructor
  · rintro ⟨hx, hc⟩
    simp only [List.mem_cons, List.mem_singleton, List.not_mem_nil, or_false] at hx
    rcases hx with rfl | rfl | rfl | rfl
    · exact Or.inl rfl
    · exact absurd hc (by decide)
    · exact absurd hc (by decide)
    · exact Or.inr rfl
  · rintro (rfl | rfl)
    · exact ⟨by decide, by decide⟩
    · exact ⟨by decide, by decide⟩

/-- Witness for C5, amended: the dictionary listed as in the scenario. -/
theorem scenario_result_witness :
    ∃ res, Search (Guess (fresh crane [crane, slate, trace, grape]) slate).1 = some res ∧
      ∀ x, x ∈ res ↔ (x = crane ∨ x = grape) :=
  scenario_result [crane, slate, trace, grape] (fun _ => Iff.rfl)

/-- C6 (the code departs from it).  With the answer `crane` the guess `slate`
is marked green at `a` and `e` and white elsewhere.  The dictionary word
`evade` has `a` and `e` at those two positions, holds none of the white letters
`s`, `l`, `t`, and holds at least the one `a` and the one `e` the guess
revealed; the same guess would be marked the same way were `evade` the answer.
`Search` nevertheless leaves `evade` out, for holding two copies of `e`. -/
theorem search_excludes_word_with_more_copies :
    marksFrom crane 0 slate = some [.white, .white, .green, .white, .green] ∧
    marksFrom evade 0 slate = some [.white, .white, .green, .white, .green] ∧
    evade[2]? = crane[2]? ∧ evade[4]? = crane[4]? ∧
    evade.count 0x73 = 0 ∧ evade.count 0x6C = 0 ∧ evade.count 0x74 = 0 ∧
    1 ≤ evade.count 0x61 ∧ 1 ≤ evade.count 0x65 ∧
    evade ∈ (Guess (fresh crane [crane, slate, evade]) slate).1.dict ∧
    Search (Guess (fresh crane [crane, slate, evade]) slate).1 = some [crane] ∧
    evade ∉ [crane] := by
  decide

theorem Guess_result (w : Wordle) (word : GoString) :
    (Guess w word).2 =
      if word.length ≠ 5 then .error (.wordLength word)
      else .ok { inDictionary := isInDictionary w word,
                 won := decide (word = w.ans), guess := word } := by
  unfold Guess
  by_cases hl : word.length = 5
  · simp only [hl, ne_eq, not_true_eq_false, if_false]
    by_cases hd : isInDictionary w word = true
    · simp [hd, isGuessCorrect, saveGuess]
    · simp [hd, isGuessCorrect]
  · simp [hl]

theorem play_guess_length (w : Wordle) (words : List GoString) (word : GoString)
    (h0 : ∀ g ∈ w.guesses, g.length = 5) :
    ∀ g ∈ (Guess (play w words) word).1.guesses, g.length = 5 := by
  intro g hg
  rw [Guess_guesses, play_guesses] at hg
  have hplay : ∀ x ∈ w.guesses ++ words.filter (fun x => decide (x.length = 5 ∧ x ∈ w.dict)),
      x.length = 5 := by
    intro x hx
    rcases List.mem_append.1 hx with hx | hx
    · exact h0 x hx
    · have := (List.mem_filter.1 hx).2
      exact (of_decide_eq_true this).1
  split at hg
  · rename_i hc
    rcases List.mem_append.1 hg with hg | hg
    · exact hplay g hg
    · have : g = word := by simpa using hg
      rw [this]; exact hc.1
  · exact hplay g hg

/-- C7.  A guess of 5 characters that is not in the dictionary is answered
without an error, with `inDictionary = false` (and `won` telling whether it is
the answer); the session, its guess history included, is as before the call,
and `Search` gives after the call what it gave before. -/
theorem guess_outside_dictionary (w : Wordle) (word : GoString)
    (h5 : word.length = 5) (hnd : word ∉ w.dict) :
    (Guess w word).2
        = .ok { inDictionary := false, won := decide (word = w.ans), guess := word } ∧
    (Guess w word).1.guesses = w.guesses ∧
    (Guess w word).1 = w ∧
    Search (Guess w word).1 = Search w := by
  have hst : (Guess w word).1 = w := by
    rw [Guess_state, if_neg (fun h => hnd h.2)]
  have hin : isInDictionary w word = false := by
    simpa [isInDictionary] using hnd
  refine ⟨?_, by rw [hst], hst, by rw [hst]⟩
  rw [Guess_result, if_neg (by simp [h5]), hin]

/-- Witness for C7: the word `evade` guessed in a session whose dictionary
does not hold it. -/
theorem guess_outside_dictionary_witness :
    (Guess (fresh crane [crane, slate]) evade).2
        = .ok { inDictionary := false, won := decide (evade = crane), guess := evade } ∧
    (Guess (fresh crane [crane, slate]) evade).1.guesses = [] ∧
    (Guess (fresh crane [crane, slate]) evade).1 = fresh crane [crane, slate] ∧
    Search (Guess (fresh crane [crane, slate]) evade).1
        = Search (fresh crane [crane, slate]) :=
  guess_outside_dictionary (fresh crane [crane, slate]) evade (by decide) (by decide)

/-- C8.  A guess whose length is not 5 is answered with the error and no
result; the session (answer, dictionary and guess history) is as before the
call, and so is the result of `Search`. -/
theorem guess_wrong_length (w : Wordle) (word : GoString) (h5 : word.length ≠ 5) :
    (Guess w word).2 = .error (.wordLength word) ∧
    (Guess w word).1.ans = w.ans ∧
    (Guess w word).1.dict = w.dict ∧
    (Guess w word).1.guesses = w.guesses ∧
    Search (Guess w word).1 = Search w := by
  have hst : (Guess w word).1 = w := by
    rw [Guess_state, if_neg (fun h => h5 h.1)]
  refine ⟨?_, by rw [hst], by rw [hst], by rw [hst], by rw [hst]⟩
  rw [Guess_result, if_pos h5]

/-- Witness for C8: the four-letter word `cran` guessed after `slate`. -/
theorem guess_wrong_length_witness :
    (Guess (play (fresh crane [crane, slate]) [slate]) (ascii "cran")).2
        = .error (.wordLength (ascii "cran")) ∧
    (Guess (play (fresh crane [crane, slate]) [slate]) (ascii "cran")).1.ans
        = (play (fresh crane [crane, slate]) [slate]).ans ∧
    (Guess (play (fresh crane [crane, slate]) [slate]) (ascii "cran")).1.dict
        = (play (fresh crane [crane, slate]) [slate]).dict ∧
    (Guess (play (fresh crane [crane, slate]) [slate]) (ascii "cran")).1.guesses
        = (play (fresh crane [crane, slate]) [slate]).guesses ∧
    Search (Guess (play (fresh crane [crane, slate]) [slate]) (ascii "cran")).1
        = Search (play (fresh crane [crane, slate]) [slate]) :=
  guess_wrong_length (play (fresh crane [crane, slate]) [slate]) (ascii "cran") (by decide)

/-- C9 (the code departs from it).  `New` lower-cases the word list and the
answer: from the list `CRANE` it builds the session with answer and dictionary
`crane`.  In that session `Guess("CRANE")` reports `inDictionary = false`
and `won = false` and records nothing, while `Guess` of the lower-cased word
`crane` reports `inDictionary = true` and `won = true` and records it. -/
theorem guess_keeps_upper_case :
    New toLowerASCII (some [craneUpper]) craneUpper 0 = some (.ok (fresh crane [crane])) ∧
    toLowerASCII craneUpper = crane ∧
    Guess (fresh crane [crane]) craneUpper
        = (fresh crane [crane],
           .ok { inDictionary := false, won := false, guess := craneUpper }) ∧
    Guess (fresh crane [crane]) (toLowerASCII craneUpper)
        = ({ ans := crane, guesses := [crane], dict := [crane] },
           .ok { inDictionary := true, won := true, guess := crane }) :=
  ⟨rfl, by decide, rfl, rfl⟩

/-- C10, as the claim states it, fails.  `New` takes the answer `crane` with a
word list that holds `slate` only; `Guess("crane")` then has `won = true`, and
the `Search` that follows returns `slate` alone, without the answer. -/
theorem search_after_win_lacks_answer :
    New toLowerASCII (some [slate]) crane 0 = some (.ok (fresh crane [slate])) ∧
    (Guess (fresh crane [slate]) crane).2
        = .ok { inDictionary := false, won := true, guess := crane } ∧
    Search (Guess (fresh crane [slate]) crane).1 = some [slate] ∧
    (fresh crane [slate]).ans ∉ [slate] :=
  ⟨rfl, rfl, by decide, by decide⟩

/-- C10, amended.  Take a session with an empty history whose answer is a
word of its dictionary made of single-byte characters, and any series of
`Guess` calls on it.  If a further `Guess` call returns a result with
`won = true`, the `Search` that follows returns, and its result holds the
answer. -/
theorem search_after_win (w : Wordle) (words : List GoString) (word : GoString)
    (r : GuessResult) (h0 : w.guesses = []) (hd : w.ans ∈ w.dict) (hA : isASCII w.ans)
    (hr : (Guess (play w words) word).2 = .ok r) (hw : r.won = true) :
    ∃ res, Search (Guess (play w words) word).1 = some res ∧ w.ans ∈ res := by
  rw [Guess_result] at hr
  by_cases h5 : word.length = 5
  · rw [if_neg (by simp [h5])] at hr
    have hr' := Except.ok.inj hr
    have hwon : word = (play w words).ans := by
      rw [← hr'] at hw
      exact of_decide_eq_true hw
    rw [play_ans] at hwon
    have hlen : w.ans.length = 5 := by rw [← hwon]; exact h5
    have hans : (Guess (play w words) word).1.ans = w.ans := by rw [Guess_ans, play_ans]
    have hdict : (Guess (play w words) word).1.dict = w.dict := by rw [Guess_dict, play_dict]
    have hg := play_guess_length w words word (by rw [h0]; simp)
    have := Search_contains_answer (Guess (play w words) word).1
      (by rw [hans]; exact hA) (by rw [hans, hdict]; exact hd)
      (fun g hgm => by rw [hans, hg g hgm, hlen])
    rw [hans] at this
    exact this
  · rw [if_pos h5] at hr
    cases hr

/-- Witness for C10, amended: the answer `crane` guessed after `slate`. -/
theorem search_after_win_witness :
    ∃ res, Search (Guess (play (fresh crane [crane, slate]) [slate]) crane).1 = some res ∧
      (fresh crane [crane, slate]).ans ∈ res :=
  search_after_win (fresh crane [crane, slate]) [slate] crane
    { inDictionary := true, won := true, guess := crane } rfl (by decide) (by decide) rfl rfl

/-- C11.  A guess of 5 characters that is in the dictionary, the answer or
not, is answered with `inDictionary = true`; the history after the call is the
history before it with the word put at its end, one entry longer, and the
answer and the dictionary are as before. -/
theorem guess_in_dictionary_recorded (w : Wordle) (word : GoString)
    (h5 : word.length = 5) (hd : word ∈ w.dict) :
    (Guess w word).2
        = .ok { inDictionary := true, won := decide (word = w.ans), guess := word } ∧
    (Guess w word).1.guesses = w.guesses ++ [word] ∧
    (Guess w word).1.guesses.length = w.guesses.length + 1 ∧
    (Guess w word).1.ans = w.ans ∧
    (Guess w word).1.dict = w.dict := by
  have hin : isInDictionary w word = true := by
    simpa [isInDictionary] using hd
  have hg : (Guess w word).1.guesses = w.guesses ++ [word] := by
    rw [Guess_guesses, if_pos ⟨h5, hd⟩]
  refine ⟨?_, hg, by rw [hg]; simp, Guess_ans w word, Guess_dict w word⟩
  rw [Guess_result, if_neg (by simp [h5]), hin]

/-- Witness for C11: `slate` guessed twice in a session with answer `crane`;
the second call records it once more. -/
theorem guess_in_dictionary_recorded_witness :
    (Guess (play (fresh crane [crane, slate]) [slate]) slate).2
        = .ok { inDictionary := true,
                won := decide (slate = (play (fresh crane [crane, slate]) [slate]).ans),
                guess := slate } ∧
    (Guess (play (fresh crane [crane, slate]) [slate]) slate).1.guesses
        = (play (fresh crane [crane, slate]) [slate]).guesses ++ [slate] ∧
    (Guess (play (fresh crane [crane, slate]) [slate]) slate).1.guesses.length
        = (play (fresh crane [crane, slate]) [slate]).guesses.length + 1 ∧
    (Guess (play (fresh crane [crane, slate]) [slate]) slate).1.ans
        = (play (fresh crane [crane, slate]) [slate]).ans ∧
    (Guess (play (fresh crane [crane, slate]) [slate]) slate).1.dict
        = (play (fresh crane [crane, slate]) [slate]).dict :=
  guess_in_dictionary_recorded (play (fresh crane [crane, slate]) [slate]) slate
    (by decide) (by decide)

/-- C12.  A guess of 5 characters is answered with a result whose `guess` is
the word, and whose `won` is true exactly when the word is the answer of the
session. -/
theorem guess_won_iff_answer (w : Wordle) (word : GoString) (h5 : word.length = 5) :
    ∃ r, (Guess w word).2 = .ok r ∧ r.guess = word ∧ (r.won = true ↔ word = w.ans) := by
  refine ⟨_, by rw [Guess_result, if_neg (by simp [h5])], rfl, ?_⟩
  simp

/-- Witness for C12: the guess `slate` in a session with answer `crane`. -/
theorem guess_won_iff_answer_witness :
    ∃ r, (Guess (fresh crane [crane, slate]) slate).2 = .ok r ∧ r.guess = slate ∧
      (r.won = true ↔ slate = (fresh crane [crane, slate]).ans) :=
  guess_won_iff_answer (fresh crane [crane, slate]) slate (by decide)

/-- C13.  With an empty guess history `Search` returns the dictionary, every
word of it, each as often as it is listed and in the order the map is
iterated, with a `nil` error. -/
theorem search_before_any_guess (w : Wordle) (order : List GoString)
    (h0 : w.guesses = []) :
    Search w = some w.dict ∧ (callSearch w order).2 = some (order, none) := by
  have key : ∀ d : List GoString,
      Search { ans := w.ans, guesses := [], dict := d } = some d := by
    intro d
    simp [Search, buildConstraints, exactOk, containsOk, GoMap.get]
  constructor
  · have : w = { ans := w.ans, guesses := [], dict := w.dict } := by
      cases w; simp_all
    rw [this]; exact key _
  · simp only [callSearch, h0]
    rw [key order]; rfl

/-- Witness for C13: the session with answer `crane` and four words. -/
theorem search_before_any_guess_witness :
    Search (fresh crane [crane, slate, trace, grape])
        = some (fresh crane [crane, slate, trace, grape]).dict ∧
    (callSearch (fresh crane [crane, slate, trace, grape]) [grape, trace, slate, crane]).2
        = some ([grape, trace, slate, crane], none) :=
  search_before_any_guess (fresh crane [crane, slate, trace, grape])
    [grape, trace, slate, crane] rfl

theorem Search_congr (ans : GoString) (gs1 gs2 : List GoString) (d : List GoString)
    (h : ∀ ic, ic ∈ letters gs1 ↔ ic ∈ letters gs2) :
    Search { ans := ans, guesses := gs1, dict := d }
      = Search { ans := ans, guesses := gs2, dict := d } := by
  by_cases hb : ∀ ic ∈ letters gs1, ic.1 < ans.length
  · have hb2 : ∀ ic ∈ letters gs2, ic.1 < ans.length := fun ic hic => hb ic ((h ic).2 hic)
    rw [Search_some _ hb, Search_some _ hb2]
    simp only [Option.some.injEq]
    apply List.filter_congr
    intro word _
    rw [Bool.eq_iff_iff]
    simp only [decide_eq_true_eq]
    exact ⟨consistent_mono ans _ _ word (fun x hx => (h x).2 hx),
           consistent_mono ans _ _ word (fun x hx => (h x).1 hx)⟩
  · push_neg at hb
    obtain ⟨ic, hic, hle⟩ := hb
    rw [(Search_none_iff _).2 ⟨ic, hic, hle⟩, (Search_none_iff _).2 ⟨ic, (h ic).1 hic, hle⟩]

theorem Search_perm (w : Wordle) (o1 o2 : List GoString) (hp : o1.Perm o2) :
    (Search { w with dict := o1 } = none ∧ Search { w with dict := o2 } = none) ∨
    ∃ r1 r2, Search { w with dict := o1 } = some r1 ∧ Search { w with dict := o2 } = some r2 ∧
      r1.Perm r2 := by
  by_cases hb : ∀ ic ∈ letters w.guesses, ic.1 < w.ans.length
  · right
    exact ⟨_, _, Search_some { w with dict := o1 } hb, Search_some { w with dict := o2 } hb,
      hp.filter _⟩
  · push_neg at hb
    left
    exact ⟨(Search_none_iff { w with dict := o1 }).2 hb,
           (Search_none_iff { w with dict := o2 }).2 hb⟩

/-- C14.  A call of `Search` leaves the session as it was: answer, dictionary
and guess history are unchanged.  A second call right after it stops exactly
when the first did, and otherwise both return, with a `nil` error, the same
words, each as often in the one result as in the other, whatever the orders in
which the two calls iterate the dictionary; with the same order the two
calls return the same value. -/
theorem search_twice (w : Wordle) (o1 o2 : List GoString)
    (h1 : o1.Perm w.dict) (h2 : o2.Perm w.dict) :
    (callSearch w o1).1.ans = w.ans ∧
    (callSearch w o1).1.dict = w.dict ∧
    (callSearch w o1).1.guesses = w.guesses ∧
    (callSearch (callSearch w o1).1 o1).2 = (callSearch w o1).2 ∧
    (((callSearch w o1).2 = none ∧ (callSearch (callSearch w o1).1 o2).2 = none) ∨
      ∃ r1 r2, (callSearch w o1).2 = some (r1, none) ∧
        (callSearch (callSearch w o1).1 o2).2 = some (r2, none) ∧
        r1.Perm r2 ∧ ∀ x, x ∈ r1 ↔ x ∈ r2) := by
  refine ⟨rfl, rfl, rfl, rfl, ?_⟩
  simp only [callSearch]
  rcases Search_perm w o1 o2 (h1.trans h2.symm) with ⟨e1, e2⟩ | ⟨r1, r2, e1, e2, hp⟩
  · left; rw [e1, e2]; exact ⟨rfl, rfl⟩
  · right
    refine ⟨r1, r2, ?_, ?_, hp, fun x => hp.mem_iff⟩
    · rw [e1]; rfl
    · rw [e2]; rfl

/-- Witness for C14: two calls after the guess `slate`, the dictionary
iterated in two different orders. -/
theorem search_twice_witness :
    (callSearch (play (fresh crane [crane, slate, grape]) [slate]) [grape, slate, crane]).1.ans
      = (play (fresh crane [crane, slate, grape]) [slate]).ans ∧
    (callSearch (play (fresh crane [crane, slate, grape]) [slate]) [grape, slate, crane]).1.dict
      = (play (fresh crane [crane, slate, grape]) [slate]).dict ∧
    (callSearch (play (fresh crane [crane, slate, grape]) [slate]) [grape, slate, crane]).1.guesses
      = (play (fresh crane [crane, slate, grape]) [slate]).guesses ∧
    (callSearch (callSearch (play (fresh crane [crane, slate, grape]) [slate])
        [grape, slate, crane]).1 [grape, slate, crane]).2
      = (callSearch (play (fresh crane [crane, slate, grape]) [slate]) [grape, slate, crane]).2 ∧
    (((callSearch (play (fresh crane [crane, slate, grape]) [slate]) [grape, slate, crane]).2 = none ∧
      (callSearch (callSearch (play (fresh crane [crane, slate, grape]) [slate])
        [grape, slate, crane]).1 [crane, slate, grape]).2 = none) ∨
      ∃ r1 r2,
        (callSearch (play (fresh crane [crane, slate, grape]) [slate]) [grape, slate, crane]).2
          = some (r1, none) ∧
        (callSearch (callSearch (play (fresh crane [crane, slate, grape]) [slate])
          [grape, slate, crane]).1 [crane, slate, grape]).2 = some (r2, none) ∧
        r1.Perm r2 ∧ ∀ x, x ∈ r1 ↔ x ∈ r2) :=
  search_twice (play (fresh crane [crane, slate, grape]) [slate])
    [grape, slate, crane] [crane, slate, grape] (by decide) (by decide)

/-- C15.  For any answer and dictionary, two guess histories that hold the
same words, in whatever order and however often each, give the same result of
`Search`: the same words in the same order of the dictionary, or a stop with an
index out of range for both. -/
theorem search_history_order (ans : GoString) (dict : List GoString)
    (gs1 gs2 : List GoString) (h : ∀ g, g ∈ gs1 ↔ g ∈ gs2) :
    Search { ans := ans, guesses := gs1, dict := dict }
      = Search { ans := ans, guesses := gs2, dict := dict } := by
  apply Search_congr
  intro ic
  simp only [letters, List.mem_flatMap]
  exact ⟨fun ⟨g, hg, hic⟩ => ⟨g, (h g).1 hg, hic⟩, fun ⟨g, hg, hic⟩ => ⟨g, (h g).2 hg, hic⟩⟩

/-- Witness for C15: the history `slate`, `grape`, `slate` against the history
`grape`, `slate`. -/
theorem search_history_order_witness :
    Search { ans := crane, guesses := [slate, grape, slate], dict := [crane, slate, trace, grape] }
      = Search { ans := crane, guesses := [grape, slate], dict := [crane, slate, trace, grape] } :=
  search_history_order crane [crane, slate, trace, grape] [slate, grape, slate] [grape, slate]
    (fun g => by
      simp only [List.mem_cons, List.mem_singleton, List.not_mem_nil, or_false]
      tauto)

theorem marksFrom_disjoint (answer : GoString) (guess : GoString) :
    ∀ i, i + guess.length ≤ answer.length → isASCII guess → (∀ b ∈ guess, b ∉ answer) →
      marksFrom answer i guess = some (List.replicate guess.length Mark.white) := by
  induction guess with
  | nil => intro i _ _ _; rfl
  | cons b rest ih =>
    intro i hi hA hd
    simp only [List.length_cons] at hi
    have hb : b < 0x80 := hA b (by simp)
    have hna : b ∉ answer := hd b (by simp)
    have hlt : i < answer.length := by omega
    have hm : markAt answer i b = some Mark.white := by
      unfold markAt
      rw [List.getElem?_eq_getElem hlt]
      dsimp only
      have h1 : b ≠ answer[i] := fun h => hna (h ▸ List.getElem_mem _)
      have h2 : ¬ ContainsRune answer b = true :=
        fun h => hna ((ContainsRune_ascii answer b hb).1 h)
      rw [if_neg h1, if_neg h2]
    have hrest := ih (i + 1) (by omega) (fun x hx => hA x (by simp [hx]))
      (fun x hx => hd x (by simp [hx]))
    rw [marksFrom, hm, hrest]
    rfl

/-- C16 (the code departs from it).  When no answer is supplied and the word
list holds no word of 5 characters (here `cran` and `slates`), `New` does not
return: it stops in `rand.Intn(0)`, whatever number would have been drawn.  The
other two failures of `New`, an unreadable word list and a supplied answer of
the wrong length, are returned as errors. -/
theorem new_without_five_letter_word :
    (∀ (toLower : GoString → GoString) (r : Nat),
      New toLower (some [cran, slates]) [] r = none) ∧
    (∀ (toLower : GoString → GoString) (r : Nat),
      New toLower (some []) [] r = none) ∧
    (∀ (toLower : GoString → GoString) (r : Nat),
      New toLower none [] r = some (.error .readFile)) ∧
    (∀ (toLower : GoString → GoString) (r : Nat),
      New toLower (some [cran, slates]) cran r = some (.error (.answerLength cran 4))) :=
  ⟨fun _ _ => rfl, fun _ _ => rfl, fun _ _ => rfl, fun _ _ => rfl⟩

/-- C17 (the code departs from it).  The guess U+9000 `ab` and the answer
U+00E9 `xyz` have 5 bytes each and share no byte and no code point, yet the
first position of the guess is marked yellow: its byte `0xE9` is read as the
code point U+00E9, which the answer holds. -/
theorem feedback_of_disjoint_multibyte_words :
    hanAB.length = 5 ∧ acuteXYZ.length = 5 ∧
    (∀ b ∈ hanAB, b ∉ acuteXYZ) ∧
    (∀ ic ∈ rangeString hanAB, ∀ jc ∈ rangeString acuteXYZ, ic.2 ≠ jc.2) ∧
    marksFrom acuteXYZ 0 hanAB = some [.yellow, .white, .white, .white, .white] ∧
    formatGuess hanAB acuteXYZ true = some (.share [.yellow, .white, .white, .white, .white]) := by
  decide

theorem mem_rangeFrom_ascii (s : GoString) :
    ∀ (i j c : Nat), isASCII s → s[j]? = some c → (i + j, c) ∈ rangeFrom i 0 s := by
  induction s with
  | nil => intro i j c _ h; simp at h
  | cons b rest ih =>
    intro i j c hs h
    have hb : b < 0x80 := hs b (by simp)
    have hd : decodeRune (b :: rest) = (b, 1) := by simp [decodeRune, hb]
    rw [rangeFrom, hd]
    cases j with
    | zero =>
      have : b = c := by simpa using h
      subst this
      exact List.mem_cons_self _ _
    | succ j =>
      have h' : rest[j]? = some c := by simpa using h
      have := ih (i + 1) j c (fun x hx => hs x (by simp [hx])) h'
      have e : i + (j + 1) = i + 1 + j := by omega
      rw [e]
      exact List.mem_cons_of_mem _ this

theorem mem_rangeString_ascii (s : GoString) (hs : isASCII s) (i c : Nat) :
    (i, c) ∈ rangeString s ↔ s[i]? = some c := by
  constructor
  · intro h; exact rangeString_ascii s hs (i, c) h
  · intro h
    have := mem_rangeFrom_ascii s 0 i c hs h
    simpa [rangeString] using this

theorem mem_letters_ascii (gs : List GoString) (hs : ∀ g ∈ gs, isASCII g) (i c : Nat) :
    (i, c) ∈ letters gs ↔ ∃ g ∈ gs, g[i]? = some c := by
  simp only [letters, List.mem_flatMap]
  constructor
  · rintro ⟨g, hg, h⟩
    exact ⟨g, hg, (mem_rangeString_ascii g (hs g hg) i c).1 h⟩
  · rintro ⟨g, hg, h⟩
    exact ⟨g, hg, (mem_rangeString_ascii g (hs g hg) i c).2 h⟩

theorem countFrom_single (c : Nat) (s : GoString) : countFrom [c] 0 s = s.count c := by
  induction s with
  | nil => rfl
  | cons b rest ih =>
    rw [countFrom, List.count_cons]
    by_cases hbc : b = c
    · subst hbc
      simp [List.isPrefixOf, ih]
      omega
    · have : (c == b) = false := beq_false_of_ne (fun h => hbc h.symm)
      have hb : (b == c) = false := beq_false_of_ne hbc
      simp [List.isPrefixOf, this, hb, ih]

theorem Count_ascii (s : GoString) (c : Nat) (hc : c < 0x80) :
    Count s (encodeRune c) = s.count c := by
  have he : encodeRune c = [c] := by
    unfold encodeRune
    rw [if_pos (by omega)]
  rw [he, Count, if_neg (by simp), countFrom_single]

theorem consistent_iff_reference (w : Wordle) (word : GoString)
    (hW : isASCII word) (hW5 : word.length = 5)
    (hG : ∀ g ∈ w.guesses, isASCII g ∧ g.length = 5) :
    consistent w.ans (letters w.guesses) word ↔
      ∀ g ∈ w.guesses, ∀ i, i < 5 →
        (g[i]? = w.ans[i]? → word[i]? = w.ans[i]?) ∧
        (∀ c, g[i]? = some c → word.count c = w.ans.count c) := by
  have hGA : ∀ g ∈ w.guesses, isASCII g := fun g hg => (hG g hg).1
  constructor
  · rintro ⟨h1, h2⟩ g hg i hi
    have hgi : i < g.length := by rw [(hG g hg).2]; exact hi
    constructor
    · intro hga
      have hwi : i < word.length := by rw [hW5]; exact hi
      have hL : (i, g[i]) ∈ letters w.guesses :=
        (mem_letters_ascii _ hGA i _).2 ⟨g, hg, List.getElem?_eq_getElem hgi⟩
      have hR : (i, word[i]) ∈ rangeString word :=
        (mem_rangeString_ascii word hW i _).2 (List.getElem?_eq_getElem hwi)
      have hans : w.ans[i]? = some g[i] := by rw [← hga]; exact List.getElem?_eq_getElem hgi
      have := h1 (i, word[i]) hR (i, g[i]) hL rfl hans
      simp only at this
      rw [hans, List.getElem?_eq_getElem hwi, this]
    · intro c hc
      have hL : (i, c) ∈ letters w.guesses := (mem_letters_ascii _ hGA i c).2 ⟨g, hg, hc⟩
      have hcg : c ∈ g := List.getElem?_mem hc
      have hc80 : c < 0x80 := hGA g hg c hcg
      have := h2 (i, c) hL
      simp only at this
      rw [Count_ascii word c hc80, Count_ascii w.ans c hc80] at this
      exact this
  · intro h
    constructor
    · rintro ⟨i, c⟩ hic ⟨j, r⟩ hjr hji hans
      simp only at hji hans ⊢
      subst hji
      obtain ⟨g, hg, hgj⟩ := (mem_letters_ascii _ hGA j r).1 hjr
      have hj : j < 5 := by
        have := (List.getElem?_eq_some.1 hgj).1
        rw [(hG g hg).2] at this; exact this
      have hw := (mem_rangeString_ascii word hW j c).1 hic
      have := (h g hg j hj).1 (by rw [hgj, hans])
      rw [hw, hans] at this
      exact (Option.some.inj this).symm
    · rintro ⟨j, r⟩ hjr
      simp only
      obtain ⟨g, hg, hgj⟩ := (mem_letters_ascii _ hGA j r).1 hjr
      have hj : j < 5 := by
        have := (List.getElem?_eq_some.1 hgj).1
        rw [(hG g hg).2] at this; exact this
      have hr80 : r < 0x80 := hGA g hg r (List.getElem?_mem hgj)
      rw [Count_ascii word r hr80, Count_ascii w.ans r hr80]
      exact (h g hg j hj).2 r hgj

theorem count_word (word : GoString) (l : List GoString) :
    l.count word = @List.count GoString instBEqOfDecidableEq word l := by
  simp only [List.count]
  apply List.countP_congr
  intro x _
  simp

/-- C18.  In a session whose answer, dictionary words and recorded guesses are
5 single-byte letters each (the dictionary, the key set of a map, lists no word
twice), `Search` returns, and a word is in its result exactly when the
reference definition names it: it is in the dictionary and, for every recorded
guess `g` and position `i`, it has the answer's letter at `i` if `g` has, and
holds the letter `g[i]` as often as the answer does.  Every such word is in
the result once. -/
theorem search_is_reference (w : Wordle)
    (_hA : isASCII w.ans) (hA5 : w.ans.length = 5)
    (hD : ∀ d ∈ w.dict, isASCII d ∧ d.length = 5)
    (hG : ∀ g ∈ w.guesses, isASCII g ∧ g.length = 5)
    (hN : w.dict.Nodup) :
    ∃ res, Search w = some res ∧
      ∀ word, (word ∈ res ↔ referenceSearch w word) ∧
        (referenceSearch w word → res.count word = 1) := by
  have hb : ∀ ic ∈ letters w.guesses, ic.1 < w.ans.length :=
    letters_bound _ _ (fun g hg => by rw [(hG g hg).2, hA5])
  refine ⟨_, Search_some w hb, ?_⟩
  intro word
  have hmem : word ∈ w.dict.filter
      (fun word => decide (consistent w.ans (letters w.guesses) word)) ↔
      referenceSearch w word := by
    rw [List.mem_filter, referenceSearch]
    simp only [decide_eq_true_eq]
    constructor
    · rintro ⟨hd, hc⟩
      exact ⟨hd, (consistent_iff_reference w word (hD word hd).1 (hD word hd).2 hG).1 hc⟩
    · rintro ⟨hd, hr⟩
      exact ⟨hd, (consistent_iff_reference w word (hD word hd).1 (hD word hd).2 hG).2 hr⟩
  refine ⟨hmem, fun hr => ?_⟩
  rw [count_word]
  exact List.count_eq_one_of_mem (hN.filter _) (hmem.2 hr)

/-- Witness for C18: the session with answer `crane` after the guesses `slate`
and `grape`. -/
theorem search_is_reference_witness :
    ∃ res, Search (play (fresh crane [crane, slate, trace, grape]) [slate, grape]) = some res ∧
      ∀ word,
        (word ∈ res ↔
          referenceSearch (play (fresh crane [crane, slate, trace, grape]) [slate, grape]) word) ∧
        (referenceSearch (play (fresh crane [crane, slate, trace, grape]) [slate, grape]) word →
          res.count word = 1) :=
  search_is_reference (play (fresh crane [crane, slate, trace, grape]) [slate, grape])
    (by decide) (by decide) (by decide) (by decide) (by decide)

theorem Search_with_own_dict (w : Wordle) : Search { w with dict := w.dict } = Search w := rfl

theorem step_invariant (w0 w : Wordle) (c : Call)
    (h5 : w0.ans.length = 5) (ha : w.ans = w0.ans) (hd : w.dict = w0.dict)
    (hg : ∀ g ∈ w.guesses, g.length = 5 ∧ g ∈ w0.dict) :
    ∃ s, step w c = some s ∧ s.ans = w0.ans ∧ s.dict = w0.dict ∧
      ∀ g ∈ s.guesses, g.length = 5 ∧ g ∈ w0.dict := by
  cases c with
  | guess word =>
    refine ⟨_, rfl, by rw [Guess_ans, ha], by rw [Guess_dict, hd], ?_⟩
    intro g hgm
    rw [Guess_guesses] at hgm
    split at hgm
    · rename_i hc
      rcases List.mem_append.1 hgm with hgm | hgm
      · exact hg g hgm
      · have : g = word := by simpa using hgm
        rw [this]; exact ⟨hc.1, hd ▸ hc.2⟩
    · exact hg g hgm
  | search =>
    have hb : ∀ ic ∈ letters w.guesses, ic.1 < w.ans.length :=
      letters_bound _ _ (fun g hgm => by rw [(hg g hgm).1, ha, h5])
    refine ⟨w, ?_, ha, hd, hg⟩
    simp only [step, callSearch, Search_with_own_dict, Search_some w hb, Option.map_some']

theorem exec_invariant (w0 : Wordle) (h5 : w0.ans.length = 5) (calls : List Call) :
    ∀ w : Wordle, w.ans = w0.ans → w.dict = w0.dict →
      (∀ g ∈ w.guesses, g.length = 5 ∧ g ∈ w0.dict) →
      ∃ s, exec w calls = some s ∧ s.ans = w0.ans ∧ s.dict = w0.dict ∧
        ∀ g ∈ s.guesses, g.length = 5 ∧ g ∈ w0.dict := by
  induction calls with
  | nil => intro w ha hd hg; exact ⟨w, rfl, ha, hd, hg⟩
  | cons c cs ih =>
    intro w ha hd hg
    obtain ⟨s1, hs1, ha1, hd1, hg1⟩ := step_invariant w0 w c h5 ha hd hg
    obtain ⟨s, hs, hrest⟩ := ih s1 ha1 hd1 hg1
    exact ⟨s, by rw [exec, hs1]; exact hs, hrest⟩

/-- C19.  From a session with an answer of 5 characters and an empty history,
every series of `Guess` and `Search` calls runs to its end, and in the session
it leads to every word of the guess history has 5 characters and is in the
dictionary, and the answer and the dictionary are those of the session at the
start. -/
theorem history_invariant (w : Wordle) (calls : List Call)
    (h5 : w.ans.length = 5) (h0 : w.guesses = []) :
    ∃ s, exec w calls = some s ∧
      (∀ g ∈ s.guesses, g.length = 5 ∧ g ∈ s.dict) ∧
      s.ans = w.ans ∧ s.dict = w.dict := by
  obtain ⟨s, hs, ha, hd, hg⟩ :=
    exec_invariant w h5 calls w rfl rfl (by rw [h0]; intro g hgm; simp at hgm)
  exact ⟨s, hs, by rw [hd]; exact hg, ha, hd⟩

/-- Witness for C19: a search, two guesses in the dictionary, one outside it,
one of the wrong length, and a search again. -/
theorem history_invariant_witness :
    ∃ s, exec (fresh crane [crane, slate, grape])
        [.search, .guess slate, .guess evade, .guess cran, .guess crane, .search] = some s ∧
      (∀ g ∈ s.guesses, g.length = 5 ∧ g ∈ s.dict) ∧
      s.ans = (fresh crane [crane, slate, grape]).ans ∧
      s.dict = (fresh crane [crane, slate, grape]).dict :=
  history_invariant (fresh crane [crane, slate, grape])
    [.search, .guess slate, .guess evade, .guess cran, .guess crane, .search] rfl rfl

/-- C20.  In a session reached by `Guess` calls from one with an answer of 5
characters and an empty history, every offset `i` at which `Search` reads
`w.ans[i]` while it walks a recorded guess is below the length of the answer;
`Search` therefore returns, and a call of it returns words with a `nil`
error, in whatever order the dictionary is iterated. -/
theorem search_returns_on_reachable (w : Wordle) (words : List GoString)
    (h5 : w.ans.length = 5) (h0 : w.guesses = []) :
    (∀ ic ∈ letters (play w words).guesses, ic.1 < (play w words).ans.length) ∧
    (∃ res, Search (play w words) = some res) ∧
    (∀ order, ∃ res, (callSearch (play w words) order).2 = some (res, none)) := by
  have hlen : ∀ g ∈ (play w words).guesses, g.length ≤ (play w words).ans.length := by
    intro g hg
    rw [play_ans, h5]
    rw [play_guesses, h0, List.nil_append] at hg
    have := (List.mem_filter.1 hg).2
    exact le_of_eq (of_decide_eq_true this).1
  have hb := letters_bound _ _ hlen
  refine ⟨hb, ⟨_, Search_some _ hb⟩, fun order => ?_⟩
  have hb' : ∀ ic ∈ letters ({ play w words with dict := order } : Wordle).guesses,
      ic.1 < ({ play w words with dict := order } : Wordle).ans.length := hb
  refine ⟨order.filter
    (fun word => decide (consistent (play w words).ans (letters (play w words).guesses) word)), ?_⟩
  simp only [callSearch, Search_some _ hb', Option.map_some']

/-- Witness for C20: the session with answer `crane` after the guesses
`slate`, `evade` (not a dictionary word), `cran` (too short) and `grape`. -/
theorem search_returns_on_reachable_witness :
    (∀ ic ∈ letters (play (fresh crane [crane, slate, grape]) [slate, evade, cran, grape]).guesses,
      ic.1 < (play (fresh crane [crane, slate, grape]) [slate, evade, cran, grape]).ans.length) ∧
    (∃ res, Search (play (fresh crane [crane, slate, grape]) [slate, evade, cran, grape])
      = some res) ∧
    (∀ order, ∃ res,
      (callSearch (play (fresh crane [crane, slate, grape]) [slate, evade, cran, grape]) order).2
        = some (res, none)) :=
  search_returns_on_reachable (fresh crane [crane, slate, grape]) [slate, evade, cran, grape]
    rfl rfl

end Game
